import Mathlib

/-!
Verification of the Kline Ingestion & Merge Engine of the KLine repository.

The definitions below are a shallow embedding of the Python source,
chiefly `k线4h极值短线回测/server_bitget.py` (the variant the specification's
`KlineStore`/`RestPaginator`/`QueryCache` contracts are drawn from):

* `KLine.upsert`       embeds the merge logic of the WebSocket handler
  `on_message` (overwrite the last candle on equal open time, append on a
  strictly later one, drop stale or empty-store updates);
* `KLine.interval_to_ms`   embeds `interval_to_ms`;
* `KLine.current_kline_open` embeds `current_kline_open` (Python's floor
  modulus is `Int.fmod`);
* `KLine.fetchLoop` / `KLine.fetchHistory` embed the paginated REST fetch
  in `get_klines` (cursor advance, page-size-1000 termination, drop of
  candles at or past the clamped end);
* `KLine.get_klines`   embeds the cached query endpoint `get_klines`.

Timestamps and durations are `Int` milliseconds.  OHLCV payload fields are
carried as opaque `Int` values: the merge and pagination logic never
computes with the prices, it only copies and compares whole candles, so
any type with decidable equality is a faithful stand-in for the Python
floats.  Exceptions that a Python path can raise (`KeyError`,
`ValueError`, `IndexError`, `ZeroDivisionError`, a failed HTTP request)
are modelled by `Option`: `none` is the raised exception.
-/

namespace KLine

/-- One OHLCV candle, as built by `server_bitget.py` (`{"time": t, "open": …,
"high": …, "low": …, "close": …, "volume": …}`).  `time` is the open time in
UTC milliseconds; the remaining fields are the opaque price/volume payload
(`opn` stands for the source's `open`, a Lean keyword). -/
structure Candle where
  time : Int
  opn : Int
  high : Int
  low : Int
  close : Int
  volume : Int
deriving DecidableEq, Repr

/-- A synthetic candle whose payload is zero; used for concrete inputs and
for the mocked upstream. -/
def mkCandle (t : Int) : Candle :=
  ⟨t, 0, 0, 0, 0, 0⟩

/-- The merge step of the live-feed handler `on_message` in
`server_bitget.py` (lines 73–95): with `last` the final element of the
stored series, an update at `last`'s open time overwrites it in place
(`KLINE_CACHE["data"][-1] = candle`), an update strictly later is appended,
and anything else — an older update, or any update while the series is
empty (`if not k or not KLINE_CACHE["data"]: return`) — leaves the series
unchanged. -/
def upsert (s : List Candle) (c : Candle) : List Candle :=
  match s.getLast? with
  | none => s
  | some last =>
    if c.time = last.time then s.dropLast ++ [c]
    else if last.time < c.time then s ++ [c]
    else s

/-- `on_message` viewed with the message's confirmed/closed indicator made
explicit.  The Bitget handler parses only `ts`/`open`/`high`/`low`/
`close`/`vol` out of the frame; the closed flag carried by the feed is
never read, so the merge result cannot depend on it. -/
def upsertFlag (s : List Candle) (c : Candle) (_closed : Bool) : List Candle :=
  upsert s c

/-- The series invariant of the specification: strictly increasing by open
time (which subsumes "no duplicate keys"). -/
def SortedSeries (s : List Candle) : Prop :=
  List.Pairwise (fun a b => a.time < b.time) s

instance (s : List Candle) : Decidable (SortedSeries s) :=
  inferInstanceAs (Decidable (List.Pairwise _ s))

/-- A store mutation: `absorb h` is the history load
`KLINE_CACHE["data"] = all_klines` performed by `get_klines` after a
fetch, and `up c` is one live-feed upsert. -/
inductive StoreOp where
  | absorb : List Candle → StoreOp
  | up : Candle → StoreOp
deriving DecidableEq, Repr

/-- Apply one store mutation. -/
def applyOp (s : List Candle) : StoreOp → List Candle
  | .absorb h => h
  | .up c => upsert s c

/-- Apply a sequence of store mutations, oldest first. -/
def applyOps (s : List Candle) (ops : List StoreOp) : List Candle :=
  ops.foldl applyOp s

/-- The unit table of `interval_to_ms`:
`{"m": 60000, "h": 3600000, "d": 86400000}`; a lookup of any other
character raises `KeyError` (`none`). -/
def unitFactor : Char → Option Int
  | 'm' => some 60000
  | 'h' => some 3600000
  | 'd' => some 86400000
  | _ => none

/-- Digit-string accumulation for Python's `int(...)`. -/
def digitsToNat : List Char → Option Nat
  | [] => none
  | cs =>
    cs.foldl (fun acc c =>
      match acc with
      | none => none
      | some n => if c.isDigit then some (n * 10 + (c.toNat - '0'.toNat)) else none)
      (some 0)

/-- Python's `int(str)` on the strings relevant here: an optional sign
followed by at least one decimal digit; everything else raises
`ValueError` (`none`).  (Python additionally strips surrounding whitespace
and permits `_` separators between digits; no theorem below depends on
those inputs.) -/
def pyInt? (s : String) : Option Int :=
  match s.data with
  | [] => none
  | '-' :: rest => (digitsToNat rest).map (fun n => -(n : Int))
  | '+' :: rest => (digitsToNat rest).map (fun n => (n : Int))
  | cs => (digitsToNat cs).map (fun n => (n : Int))

/-- `interval_to_ms` of `server_bitget.py` (lines 49–52):
`unit = interval[-1]` (an empty token raises `IndexError`),
`v = int(interval[:-1])` (raises `ValueError` on a malformed integer), and
the unit-table lookup (raises `KeyError` on an unknown unit).  Note the
source performs no positivity check on `v`. -/
def interval_to_ms (interval : String) : Option Int :=
  match interval.data.getLast? with
  | none => none
  | some unit =>
    match pyInt? (String.mk interval.data.dropLast) with
    | none => none
    | some v =>
      match unitFactor unit with
      | none => none
      | some f => some (v * f)

/-- `current_kline_open` of `server_bitget.py` (lines 55–57):
`now - (now % interval_ms)` with Python's floor modulus, i.e. the open
boundary of the candle presently forming.  A zero `interval_ms` raises
`ZeroDivisionError` in Python; the caller (`fetchHistory`) models that
path. -/
def current_kline_open (nowMs intervalMs : Int) : Int :=
  nowMs - Int.fmod nowMs intervalMs

/-- The upstream candle endpoint as seen by the fetch loop:
`(startTime, endTime, limit) ↦` one page of candles, `none` when the HTTP
request raises.  (The constant `symbol`/`interval` request parameters are
fixed for the whole fetch and omitted.) -/
def Upstream : Type :=
  Int → Int → Nat → Option (List Candle)

/-- The pagination `while True:` loop of `get_klines` (lines 142–173):
request a page of at most 1000 candles at the cursor; stop on an empty
page; keep the page's candles up to the first one at or past `restEnd`
(the inner `for`'s `break`); advance the cursor to the last raw candle's
open time plus one interval; stop when the cursor reaches `restEnd` or the
page was short.  `fuel` bounds the number of iterations, since the Python
loop does not terminate against an adversarial upstream; `none` is a
raised request exception or fuel exhaustion. -/
def fetchLoop (u : Upstream) (intervalMs restEnd : Int) :
    Nat → Int → List Candle → Option (List Candle)
  | 0, _, _ => none
  | fuel + 1, fetchStart, acc =>
    match u fetchStart restEnd 1000 with
    | none => none
    | some raw =>
      match raw.getLast? with
      | none => some acc
      | some lastRaw =>
        let acc' := acc ++ raw.takeWhile (fun c => decide (c.time < restEnd))
        let nextStart := lastRaw.time + intervalMs
        if restEnd ≤ nextStart ∨ raw.length < 1000 then some acc'
        else fetchLoop u intervalMs restEnd fuel nextStart acc'

/-- The REST-visible end of a history fetch:
`rest_end = min(end_ms, current_kline_open(interval_ms))` (line 140). -/
def rest_end (nowMs endMs intervalMs : Int) : Int :=
  min endMs (current_kline_open nowMs intervalMs)

/-- The history-fetch portion of `get_klines` (lines 136–173): clamp the
end to the open time of the currently forming candle, then run the
pagination loop from `startMs` with an empty accumulator.  A zero interval
raises `ZeroDivisionError` inside `current_kline_open`. -/
def fetchHistory (u : Upstream) (fuel : Nat) (nowMs startMs endMs intervalMs : Int) :
    Option (List Candle) :=
  if intervalMs = 0 then none
  else fetchLoop u intervalMs (rest_end nowMs endMs intervalMs) fuel startMs []

/-- One page of the mocked upstream: synthetic candles at
`s, s + step, s + 2·step, …`, strictly below `e`, at most `limit` of
them. -/
def mockPage (step : Int) (s e : Int) : Nat → List Candle
  | 0 => []
  | limit + 1 =>
    if s < e then mkCandle s :: mockPage step (s + step) e limit else []

/-- The mocked upstream of the specification's pagination property: a
dense grid of closed candles every `step` milliseconds, served honestly in
ascending pages that respect `startTime`, `endTime` and `limit`. -/
def mockUpstream (step : Int) : Upstream :=
  fun s e limit => some (mockPage step s e limit)

/-- The candles a complete history fetch over a dense grid should return:
open times `start, start + step, …, start + step·(n-1)`. -/
def expectedSeries (start step : Int) (n : Nat) : List Candle :=
  (List.range n).map (fun i : Nat => mkCandle (start + step * (i : Int)))

/-- The cache key of `get_klines`:
`(symbol, interval, start, end, timezone)` (line 126). -/
abbrev QueryKey : Type :=
  String × String × String × String × String

/-- One query's request parameters (`end_` stands for the source's `end`,
a Lean keyword). -/
structure Query where
  symbol : String
  interval : String
  start : String
  end_ : String
  timezone : String
deriving DecidableEq, Repr

/-- The module-level `KLINE_CACHE` dictionary: the single-slot memo key
(`None` before any successful query) and the stored series. -/
structure ServerState where
  key : Option QueryKey
  data : List Candle
deriving DecidableEq, Repr

/-- The outcome of one `get_klines` call: the response (`none` when the
call raises), the cache state afterwards, and whether the REST fetch
pipeline was entered. -/
structure QueryResult where
  resp : Option (List Candle)
  state : ServerState
  fetched : Bool
deriving DecidableEq, Repr

/-- `cache_key = (symbol, interval, start, end, timezone)`. -/
def cacheKey (q : Query) : QueryKey :=
  (q.symbol, q.interval, q.start, q.end_, q.timezone)

/-- The query endpoint `get_klines` of `server_bitget.py` (lines 118–182):
return the cached series verbatim on a key hit; otherwise resolve the
local timestamps (`zoned_local_to_utc_ms`, an external zone database
passed here as `toUtcMs`), parse the interval, run the clamped paginated
fetch, and only then write both cache fields.  Any exception on the way —
time parse, unknown zone, bad interval, zero interval, failed request —
propagates before the cache is touched.  (The `start_ws` side effect
touches only the WebSocket bookkeeping flags, not the cache, and is
outside this model.) -/
def get_klines (toUtcMs : String → String → Option Int) (u : Upstream)
    (fuel : Nat) (nowMs : Int) (st : ServerState) (q : Query) : QueryResult :=
  if st.key = some (cacheKey q) then ⟨some st.data, st, false⟩
  else
    match toUtcMs q.start q.timezone with
    | none => ⟨none, st, false⟩
    | some startMs =>
      match toUtcMs q.end_ q.timezone with
      | none => ⟨none, st, false⟩
      | some endMs =>
        match interval_to_ms q.interval with
        | none => ⟨none, st, false⟩
        | some intervalMs =>
          match fetchHistory u fuel nowMs startMs endMs intervalMs with
          | none => ⟨none, st, true⟩
          | some all => ⟨some all, ⟨some (cacheKey q), all⟩, true⟩

/-! ## Basic reduction lemmas for `upsert` -/

theorem upsert_of_getLast_none {s : List Candle} (h : s.getLast? = none) (c : Candle) :
    upsert s c = s := by
  unfold upsert
  rw [h]

theorem upsert_of_getLast_some {s : List Candle} {last : Candle}
    (h : s.getLast? = some last) (c : Candle) :
    upsert s c =
      if c.time = last.time then s.dropLast ++ [c]
      else if last.time < c.time then s ++ [c]
      else s := by
  unfold upsert
  rw [h]

/-- `SortedSeries` over a list ending in `a` splits into the invariant for
the prefix plus `a` dominating every prefix element. -/
theorem sortedSeries_concat_iff {l : List Candle} {a : Candle} :
    SortedSeries (l ++ [a]) ↔ SortedSeries l ∧ ∀ x ∈ l, x.time < a.time := by
  simp [SortedSeries, List.pairwise_append]

/-- `upsert` preserves the strict-ordering invariant. -/
theorem upsert_sorted {s : List Candle} (c : Candle) (hs : SortedSeries s) :
    SortedSeries (upsert s c) := by
  cases h : s.getLast? with
  | none => rwa [upsert_of_getLast_none h]
  | some last =>
    have hne : s ≠ [] := by
      intro e
      rw [e] at h
      simp at h
    have hlast : s.getLast hne = last := by
      rw [List.getLast?_eq_getLast s hne] at h
      exact Option.some.inj h
    have hsplit : s.dropLast ++ [last] = s := by
      rw [← hlast]
      exact List.dropLast_concat_getLast hne
    have hs' : SortedSeries (s.dropLast ++ [last]) := by rwa [hsplit]
    rw [sortedSeries_concat_iff] at hs'
    rw [upsert_of_getLast_some h]
    split_ifs with h1 h2
    · rw [sortedSeries_concat_iff]
      exact ⟨hs'.1, fun x hx => h1 ▸ hs'.2 x hx⟩
    · rw [sortedSeries_concat_iff]
      refine ⟨hs, fun x hx => ?_⟩
      rw [← hsplit] at hx
      rcases List.mem_append.mp hx with hx | hx
      · exact lt_trans (hs'.2 x hx) h2
      · rw [List.mem_singleton] at hx
        subst hx
        exact h2
    · exact hs

/-! ## C2 — `upsert` case analysis -/

/-- C2 (counterexample): the claim says an upsert into an empty series
appends the candle; the code (`if not k or not KLINE_CACHE["data"]:
return`) discards it instead, so the result is `[]`, not `[c]`. -/
theorem upsert_empty_not_append :
    upsert [] (mkCandle 0) = [] ∧ upsert [] (mkCandle 0) ≠ [mkCandle 0] := by
  decide

/-- C2 (amended): on an empty series the update is discarded; on a
non-empty series with last retained open time `last.time`, a strictly
later update is appended, an equal-time update overwrites the last element
in place, and an older update is discarded. -/
theorem upsert_cases (s : List Candle) (c : Candle) :
    (s.getLast? = none → upsert s c = s) ∧
    ∀ last, s.getLast? = some last →
      (last.time < c.time → upsert s c = s ++ [c]) ∧
      (c.time = last.time → upsert s c = s.dropLast ++ [c]) ∧
      (c.time < last.time → upsert s c = s) := by
  refine ⟨fun h => upsert_of_getLast_none h c, fun last h => ⟨?_, ?_, ?_⟩⟩
  · intro hlt
    rw [upsert_of_getLast_some h, if_neg hlt.ne', if_pos hlt]
  · intro heq
    rw [upsert_of_getLast_some h, if_pos heq]
  · intro hlt
    rw [upsert_of_getLast_some h, if_neg hlt.ne, if_neg (lt_asymm hlt)]

/-- C2 (witness): the three non-empty branches and the empty branch of
`upsert_cases`, each at a concrete input. -/
theorem upsert_cases_witness :
    upsert [] (mkCandle 7) = [] ∧
    upsert [mkCandle 0] (mkCandle 60000) = [mkCandle 0] ++ [mkCandle 60000] ∧
    upsert [mkCandle 0, mkCandle 60000] (mkCandle 60000) =
      [mkCandle 0, mkCandle 60000].dropLast ++ [mkCandle 60000] ∧
    upsert [mkCandle 0, mkCandle 60000] (mkCandle 5) = [mkCandle 0, mkCandle 60000] :=
  ⟨(upsert_cases [] (mkCandle 7)).1 (by decide),
   ((upsert_cases [mkCandle 0] (mkCandle 60000)).2 (mkCandle 0) (by decide)).1 (by decide),
   ((upsert_cases [mkCandle 0, mkCandle 60000] (mkCandle 60000)).2 (mkCandle 60000)
      (by decide)).2.1 (by decide),
   ((upsert_cases [mkCandle 0, mkCandle 60000] (mkCandle 5)).2 (mkCandle 60000)
      (by decide)).2.2 (by decide)⟩

/-! ## C3 — the closed flag is not terminal -/

/-- C3 (counterexample): a candle at open time 0 is merged with
`closed = true`; a later open-flagged update at the same open time then
replaces it, because the handler never reads the flag.  The claim's
terminal-state rule fails. -/
theorem closed_not_terminal :
    upsertFlag (upsertFlag [mkCandle 0] ⟨0, 1, 1, 1, 1, 1⟩ true) ⟨0, 2, 2, 2, 2, 2⟩ false =
      [⟨0, 2, 2, 2, 2, 2⟩] ∧
    (⟨0, 2, 2, 2, 2, 2⟩ : Candle) ≠ ⟨0, 1, 1, 1, 1, 1⟩ := by
  decide

/-- C3 (amended): the merge ignores the closed/open flag entirely — any
update whose open time equals the last retained open time overwrites the
last element, whatever flag the stored candle was merged with and whatever
flag the update carries.  In particular the claim's second half (a closed
update replaces an open candle at the same time) holds, but its first half
(closed is terminal against open updates) does not. -/
theorem upsert_overwrite_ignores_flag (s : List Candle) (last c : Candle) (b : Bool)
    (h : s.getLast? = some last) (heq : c.time = last.time) :
    upsertFlag s c b = s.dropLast ++ [c] := by
  rw [upsertFlag, upsert_of_getLast_some h, if_pos heq]

/-- C3 (witness): overwriting at an equal open time, with an open-flagged
update over a previously closed candle. -/
theorem upsert_overwrite_ignores_flag_witness :
    upsertFlag [⟨0, 1, 1, 1, 1, 1⟩] ⟨0, 2, 2, 2, 2, 2⟩ false =
      [(⟨0, 1, 1, 1, 1, 1⟩ : Candle)].dropLast ++ [⟨0, 2, 2, 2, 2, 2⟩] :=
  upsert_overwrite_ignores_flag [⟨0, 1, 1, 1, 1, 1⟩] ⟨0, 1, 1, 1, 1, 1⟩
    ⟨0, 2, 2, 2, 2, 2⟩ false (by decide) (by decide)

/-! ## C6 — idempotence of `upsert` -/

/-- C6: merging the identical (closed) candle twice in a row yields the
same series as merging it once.  The handler never reads the closed flag,
so this holds for any flag value and any candle. -/
theorem upsert_idempotent (s : List Candle) (c : Candle) :
    upsertFlag (upsertFlag s c true) c true = upsertFlag s c true := by
  show upsert (upsert s c) c = upsert s c
  cases h : s.getLast? with
  | none =>
    rw [upsert_of_getLast_none h, upsert_of_getLast_none h]
  | some last =>
    rw [upsert_of_getLast_some h]
    split_ifs with h1 h2
    · rw [upsert_of_getLast_some (List.getLast?_concat _), if_pos rfl, List.dropLast_concat]
    · rw [upsert_of_getLast_some (List.getLast?_concat _), if_pos rfl, List.dropLast_concat]
    · rw [upsert_of_getLast_some h, if_neg h1, if_neg h2]

/-! ## C10 — live updates never seed an empty series -/

/-- C10: a live-feed update arriving while the series is empty is
discarded and the series stays empty; more generally an upsert never
changes whether the series is empty, so a live update is never the series'
first (seeding) element. -/
theorem upsert_empty_discard (c : Candle) (s : List Candle) :
    upsert [] c = [] ∧ (upsert s c).isEmpty = s.isEmpty := by
  refine ⟨rfl, ?_⟩
  cases h : s.getLast? with
  | none =>
    rw [upsert_of_getLast_none h]
  | some last =>
    have hne : s ≠ [] := by
      intro e
      rw [e] at h
      simp at h
    rw [upsert_of_getLast_some h]
    split_ifs with h1 h2
    · cases hd : s.dropLast <;> simp [List.isEmpty_iff, hne]
    · cases s <;> simp_all
    · rfl

/-! ## C1 — ordering invariant under history absorbs and live upserts -/

/-- C1: after any sequence of history-absorb and live-upsert operations —
each absorbed history itself strictly increasing, as produced by the
paginator — the snapshot of the series is strictly increasing by open
time, with no duplicate open-time keys (strict increase forces
distinctness). -/
theorem applyOps_sorted (s0 : List Candle) (ops : List StoreOp)
    (h0 : SortedSeries s0)
    (habs : ∀ l, StoreOp.absorb l ∈ ops → SortedSeries l) :
    SortedSeries (applyOps s0 ops) := by
  induction ops generalizing s0 with
  | nil => exact h0
  | cons op rest ih =>
    have h1 : SortedSeries (applyOp s0 op) := by
      cases op with
      | absorb l => exact habs l (List.mem_cons_self _ _)
      | up c => exact upsert_sorted c h0
    have h2 : ∀ l, StoreOp.absorb l ∈ rest → SortedSeries l :=
      fun l hl => habs l (List.mem_cons_of_mem _ hl)
    show SortedSeries (List.foldl applyOp (applyOp s0 op) rest)
    exact ih (applyOp s0 op) h1 h2

/-- C1 (witness): a history absorb followed by two live upserts (one
append, one overwrite) on an initially empty store. -/
theorem applyOps_sorted_witness :
    SortedSeries (applyOps []
      [StoreOp.absorb [mkCandle 0, mkCandle 60000],
       StoreOp.up (mkCandle 120000),
       StoreOp.up ⟨120000, 3, 4, 2, 3, 9⟩]) := by
  apply applyOps_sorted
  · decide
  · intro l hl
    simp only [List.mem_cons, List.not_mem_nil, or_false] at hl
    rcases hl with h | h | h
    · injection h with h'
      subst h'
      decide
    · exact StoreOp.noConfusion h
    · exact StoreOp.noConfusion h

/-! ## C7 — interval token parsing -/

/-- C7 (counterexample): `interval_to_ms` is not injective on valid tokens
(`"60m"` and `"1h"` are distinct valid tokens mapping to the same
duration), and a non-positive multiplier does not fail (`"0m"` succeeds
with 0 rather than raising). -/
theorem interval_to_ms_not_bijective :
    interval_to_ms "60m" = some 3600000 ∧
    interval_to_ms "1h" = some 3600000 ∧
    ("60m" : String) ≠ "1h" ∧
    interval_to_ms "0m" = some 0 := by
  refine ⟨by decide, by decide, by decide, by decide⟩

/-- C7 (amended): `interval_to_ms` fails (raises) on an unknown final unit
character and on a prefix that is not a Python integer; on a valid token
it returns the parsed multiplier times the unit's millisecond factor, and
for a fixed unit that value map is injective.  Injectivity across units
and rejection of non-positive multipliers, asserted by the claim, do not
hold (see the counterexample). -/
theorem interval_to_ms_spec :
    (∀ s u, s.data.getLast? = some u → unitFactor u = none → interval_to_ms s = none) ∧
    (∀ s : String, pyInt? (String.mk s.data.dropLast) = none → interval_to_ms s = none) ∧
    (∀ s u v f, s.data.getLast? = some u →
      pyInt? (String.mk s.data.dropLast) = some v →
      unitFactor u = some f → interval_to_ms s = some (v * f)) ∧
    (∀ u f v₁ v₂, unitFactor u = some f → v₁ * f = v₂ * f → v₁ = v₂) := by
  refine ⟨?_, ?_, ?_, ?_⟩
  · intro s u h1 h2
    unfold interval_to_ms
    rw [h1]
    cases hp : pyInt? (String.mk s.data.dropLast) with
    | none => rfl
    | some v => simp [h2]
  · intro s hp
    unfold interval_to_ms
    cases h1 : s.data.getLast? with
    | none => rfl
    | some u => simp [hp]
  · intro s u v f h1 hp h2
    unfold interval_to_ms
    simp [h1, hp, h2]
  · intro u f v₁ v₂ hu hv
    have hf : f ≠ 0 := by
      unfold unitFactor at hu
      split at hu <;> simp_all <;> omega
    exact mul_right_cancel₀ hf hv

/-- C7 (witness): `interval_to_ms_spec` applied at concrete tokens —
unknown unit `"5x"`, malformed prefix `"xm"`, valid token `"2h"`, and the
fixed-unit cancellation at `'d'`. -/
theorem interval_to_ms_spec_witness :
    interval_to_ms "5x" = none ∧
    interval_to_ms "xm" = none ∧
    interval_to_ms "2h" = some 7200000 ∧
    (7 : Int) = 7 :=
  ⟨interval_to_ms_spec.1 "5x" 'x' (by decide) (by decide),
   interval_to_ms_spec.2.1 "xm" (by decide),
   interval_to_ms_spec.2.2.1 "2h" 'h' 2 3600000 (by decide) (by decide) (by decide),
   interval_to_ms_spec.2.2.2 'd' 86400000 7 7 (by decide) rfl⟩

/-! ## Branch characterizations of `get_klines` -/

theorem get_klines_hit (toUtc : String → String → Option Int) (u : Upstream)
    (fuel : Nat) (now : Int) (st : ServerState) (q : Query)
    (hk : st.key = some (cacheKey q)) :
    get_klines toUtc u fuel now st q = ⟨some st.data, st, false⟩ := by
  rw [get_klines, if_pos hk]

theorem get_klines_start_err (toUtc : String → String → Option Int) (u : Upstream)
    (fuel : Nat) (now : Int) (st : ServerState) (q : Query)
    (hmiss : st.key ≠ some (cacheKey q))
    (hs : toUtc q.start q.timezone = none) :
    get_klines toUtc u fuel now st q = ⟨none, st, false⟩ := by
  rw [get_klines, if_neg hmiss]
  simp only [hs]

theorem get_klines_end_err (toUtc : String → String → Option Int) (u : Upstream)
    (fuel : Nat) (now : Int) (st : ServerState) (q : Query) (startMs : Int)
    (hmiss : st.key ≠ some (cacheKey q))
    (hs : toUtc q.start q.timezone = some startMs)
    (he : toUtc q.end_ q.timezone = none) :
    get_klines toUtc u fuel now st q = ⟨none, st, false⟩ := by
  rw [get_klines, if_neg hmiss]
  simp only [hs, he]

theorem get_klines_interval_err (toUtc : String → String → Option Int) (u : Upstream)
    (fuel : Nat) (now : Int) (st : ServerState) (q : Query) (startMs endMs : Int)
    (hmiss : st.key ≠ some (cacheKey q))
    (hs : toUtc q.start q.timezone = some startMs)
    (he : toUtc q.end_ q.timezone = some endMs)
    (hi : interval_to_ms q.interval = none) :
    get_klines toUtc u fuel now st q = ⟨none, st, false⟩ := by
  rw [get_klines, if_neg hmiss]
  simp only [hs, he, hi]

theorem get_klines_fetch_err (toUtc : String → String → Option Int) (u : Upstream)
    (fuel : Nat) (now : Int) (st : ServerState) (q : Query) (startMs endMs intervalMs : Int)
    (hmiss : st.key ≠ some (cacheKey q))
    (hs : toUtc q.start q.timezone = some startMs)
    (he : toUtc q.end_ q.timezone = some endMs)
    (hi : interval_to_ms q.interval = some intervalMs)
    (hf : fetchHistory u fuel now startMs endMs intervalMs = none) :
    get_klines toUtc u fuel now st q = ⟨none, st, true⟩ := by
  rw [get_klines, if_neg hmiss]
  simp only [hs, he, hi, hf]

theorem get_klines_success (toUtc : String → String → Option Int) (u : Upstream)
    (fuel : Nat) (now : Int) (st : ServerState) (q : Query)
    (startMs endMs intervalMs : Int) (all : List Candle)
    (hmiss : st.key ≠ some (cacheKey q))
    (hs : toUtc q.start q.timezone = some startMs)
    (he : toUtc q.end_ q.timezone = some endMs)
    (hi : interval_to_ms q.interval = some intervalMs)
    (hf : fetchHistory u fuel now startMs endMs intervalMs = some all) :
    get_klines toUtc u fuel now st q = ⟨some all, ⟨some (cacheKey q), all⟩, true⟩ := by
  rw [get_klines, if_neg hmiss]
  simp only [hs, he, hi, hf]

/-! ## C5 — single-slot query cache -/

/-- C5: on a key miss that succeeds, `get_klines` runs the fetch pipeline
once and repopulates the single cache slot with the new key and series
(fully evicting the previous entry); an immediately repeated identical
query is then answered from the slot — with the same series, no state
change, and no use of the resolver or the upstream at all (the second call
is stated over an arbitrary resolver, upstream, fuel and clock). -/
theorem cache_single_slot (toUtc toUtc' : String → String → Option Int)
    (u u' : Upstream) (fuel fuel' : Nat) (now now' : Int)
    (st : ServerState) (q : Query) (d : List Candle)
    (hmiss : st.key ≠ some (cacheKey q))
    (h1 : (get_klines toUtc u fuel now st q).resp = some d) :
    (get_klines toUtc u fuel now st q).fetched = true ∧
    (get_klines toUtc u fuel now st q).state = ⟨some (cacheKey q), d⟩ ∧
    get_klines toUtc' u' fuel' now' (get_klines toUtc u fuel now st q).state q =
      ⟨some d, ⟨some (cacheKey q), d⟩, false⟩ := by
  cases hs : toUtc q.start q.timezone with
  | none =>
    rw [get_klines_start_err toUtc u fuel now st q hmiss hs] at h1
    simp at h1
  | some startMs =>
    cases he : toUtc q.end_ q.timezone with
    | none =>
      rw [get_klines_end_err toUtc u fuel now st q startMs hmiss hs he] at h1
      simp at h1
    | some endMs =>
      cases hi : interval_to_ms q.interval with
      | none =>
        rw [get_klines_interval_err toUtc u fuel now st q startMs endMs hmiss hs he hi] at h1
        simp at h1
      | some intervalMs =>
        cases hf : fetchHistory u fuel now startMs endMs intervalMs with
        | none =>
          rw [get_klines_fetch_err toUtc u fuel now st q startMs endMs intervalMs
            hmiss hs he hi hf] at h1
          simp at h1
        | some all =>
          have hq := get_klines_success toUtc u fuel now st q startMs endMs intervalMs all
            hmiss hs he hi hf
          rw [hq] at h1 ⊢
          have hd : all = d := Option.some.inj h1
          subst hd
          exact ⟨rfl, rfl, get_klines_hit toUtc' u' fuel' now' _ q rfl⟩

/-- C5 (witness): a cold cache, a one-candle fetch, then the identical
query answered from the slot with a resolver and upstream that would fail
if consulted. -/
theorem cache_single_slot_witness :
    (get_klines (fun s _ => if s = "s" then some 0 else some 60000)
        (mockUpstream 60000) 3 60000 ⟨none, []⟩
        ⟨"BTCUSDT", "1m", "s", "e", "UTC"⟩).fetched = true ∧
    (get_klines (fun s _ => if s = "s" then some 0 else some 60000)
        (mockUpstream 60000) 3 60000 ⟨none, []⟩
        ⟨"BTCUSDT", "1m", "s", "e", "UTC"⟩).state =
      ⟨some (cacheKey ⟨"BTCUSDT", "1m", "s", "e", "UTC"⟩), [mkCandle 0]⟩ ∧
    get_klines (fun _ _ => none) (fun _ _ _ => none) 0 0
        (get_klines (fun s _ => if s = "s" then some 0 else some 60000)
          (mockUpstream 60000) 3 60000 ⟨none, []⟩
          ⟨"BTCUSDT", "1m", "s", "e", "UTC"⟩).state
        ⟨"BTCUSDT", "1m", "s", "e", "UTC"⟩ =
      ⟨some [mkCandle 0], ⟨some (cacheKey ⟨"BTCUSDT", "1m", "s", "e", "UTC"⟩), [mkCandle 0]⟩,
        false⟩ :=
  cache_single_slot (fun s _ => if s = "s" then some 0 else some 60000) (fun _ _ => none)
    (mockUpstream 60000) (fun _ _ _ => none) 3 0 60000 0 ⟨none, []⟩
    ⟨"BTCUSDT", "1m", "s", "e", "UTC"⟩ [mkCandle 0] (by decide) (by decide)

/-! ## C9 — a failed query leaves the cache untouched -/

/-- C9: whenever `get_klines` surfaces an error — a time-parse or zone
failure, a bad or zero interval, a REST request failure anywhere in the
pagination, or a non-terminating fetch — the cache key and cached series
are exactly as before the call: the code writes `KLINE_CACHE` only after
the whole fetch has succeeded, and the partial `all_klines` list is local. -/
theorem error_preserves_state (toUtc : String → String → Option Int) (u : Upstream)
    (fuel : Nat) (now : Int) (st : ServerState) (q : Query)
    (h : (get_klines toUtc u fuel now st q).resp = none) :
    (get_klines toUtc u fuel now st q).state = st := by
  by_cases hk : st.key = some (cacheKey q)
  · rw [get_klines_hit toUtc u fuel now st q hk] at h
    simp at h
  · cases hs : toUtc q.start q.timezone with
    | none => rw [get_klines_start_err toUtc u fuel now st q hk hs]
    | some startMs =>
      cases he : toUtc q.end_ q.timezone with
      | none => rw [get_klines_end_err toUtc u fuel now st q startMs hk hs he]
      | some endMs =>
        cases hi : interval_to_ms q.interval with
        | none => rw [get_klines_interval_err toUtc u fuel now st q startMs endMs hk hs he hi]
        | some intervalMs =>
          cases hf : fetchHistory u fuel now startMs endMs intervalMs with
          | none =>
            rw [get_klines_fetch_err toUtc u fuel now st q startMs endMs intervalMs
              hk hs he hi hf]
          | some all =>
            rw [get_klines_success toUtc u fuel now st q startMs endMs intervalMs all
              hk hs he hi hf] at h
            simp at h

/-- C9 (witness): an upstream whose request always fails mid-fetch leaves
a concrete non-trivial cache state unchanged. -/
theorem error_preserves_state_witness :
    (get_klines (fun _ _ => some 0) (fun _ _ _ => none) 1 0
        ⟨none, [mkCandle 5]⟩ ⟨"BTCUSDT", "1m", "s", "e", "UTC"⟩).state =
      ⟨none, [mkCandle 5]⟩ :=
  error_preserves_state (fun _ _ => some 0) (fun _ _ _ => none) 1 0
    ⟨none, [mkCandle 5]⟩ ⟨"BTCUSDT", "1m", "s", "e", "UTC"⟩ (by decide)

/-! ## C8 — no `start >= end` validation exists -/

/-- C8 (counterexample): with both local timestamps resolving to the same
instant (`start_ms = end_ms = 1000`, so `start >= end`), `get_klines` does
not fail at all — no range check exists in the code — and it enters the
REST fetch (`fetched = true`), returning an empty series and caching it. -/
theorem no_invalid_range_check :
    get_klines (fun _ _ => some 1000) (mockUpstream 60000) 1 1000 ⟨none, []⟩
        ⟨"BTCUSDT", "1m", "s", "e", "UTC"⟩ =
      ⟨some [], ⟨some ("BTCUSDT", "1m", "s", "e", "UTC"), []⟩, true⟩ := by
  decide

theorem mockPage_of_not_lt {step s e : Int} (h : ¬s < e) :
    ∀ limit, mockPage step s e limit = [] := by
  intro limit
  cases limit with
  | zero => rfl
  | succ l => simp [mockPage, h]

/-- C8 (amended): a query whose converted start timestamp is at or past
its converted end timestamp is not rejected; the fetch runs with a
degenerate window (the clamped end is at or before the start), so against
an honest upstream it returns — and caches — an empty series. -/
theorem degenerate_range_empty (toUtc : String → String → Option Int) (step : Int)
    (fuel : Nat) (now : Int) (st : ServerState) (q : Query) (startMs endMs : Int)
    (hmiss : st.key ≠ some (cacheKey q))
    (hs : toUtc q.start q.timezone = some startMs)
    (he : toUtc q.end_ q.timezone = some endMs)
    (hi : interval_to_ms q.interval = some step)
    (hstep : step ≠ 0)
    (hle : endMs ≤ startMs)
    (hfuel : 0 < fuel) :
    get_klines toUtc (mockUpstream step) fuel now st q =
      ⟨some [], ⟨some (cacheKey q), []⟩, true⟩ := by
  obtain ⟨f, rfl⟩ : ∃ f, fuel = f + 1 := ⟨fuel - 1, by omega⟩
  have hre : rest_end now endMs step ≤ startMs :=
    le_trans (min_le_left _ _) hle
  have hpage : mockPage step startMs (rest_end now endMs step) 1000 = [] :=
    mockPage_of_not_lt (by omega) 1000
  have hf : fetchHistory (mockUpstream step) (f + 1) now startMs endMs step = some [] := by
    rw [fetchHistory, if_neg hstep, fetchLoop]
    simp only [mockUpstream, hpage]
    rfl
  exact get_klines_success toUtc (mockUpstream step) (f + 1) now st q startMs endMs step []
    hmiss hs he hi hf

/-- C8 (witness): `degenerate_range_empty` at a strictly inverted range
(start resolves to 2000, end to 1000). -/
theorem degenerate_range_empty_witness :
    get_klines (fun s _ => if s = "s" then some 2000 else some 1000)
        (mockUpstream 60000) 2 5000 ⟨none, [mkCandle 9]⟩
        ⟨"BTCUSDT", "1m", "s", "e", "UTC"⟩ =
      ⟨some [], ⟨some (cacheKey ⟨"BTCUSDT", "1m", "s", "e", "UTC"⟩), []⟩, true⟩ :=
  degenerate_range_empty (fun s _ => if s = "s" then some 2000 else some 1000) 60000 2 5000
    ⟨none, [mkCandle 9]⟩ ⟨"BTCUSDT", "1m", "s", "e", "UTC"⟩ 2000 1000
    (by decide) (by decide) (by decide) (by decide) (by decide) (by decide) (by decide)

/-! ## C4 — pagination completeness of the history fetch -/

theorem expectedSeries_succ_head (s step : Int) (n : Nat) :
    expectedSeries s step (n + 1) = mkCandle s :: expectedSeries (s + step) step n := by
  simp only [expectedSeries, List.range_succ_eq_map, List.map_cons, List.map_map]
  congr 1
  · simp
  · refine List.map_congr_left fun i _ => ?_
    simp only [Function.comp_apply, mkCandle, Candle.mk.injEq, and_true]
    push_cast
    ring

theorem expectedSeries_split (s step : Int) (a b : Nat) :
    expectedSeries s step (a + b) =
      expectedSeries s step a ++ expectedSeries (s + step * a) step b := by
  simp only [expectedSeries, List.range_add, List.map_append, List.map_map]
  congr 1
  refine List.map_congr_left fun i _ => ?_
  simp only [Function.comp_apply, mkCandle, Candle.mk.injEq, and_true]
  push_cast
  ring

theorem expectedSeries_length (s step : Int) (n : Nat) :
    (expectedSeries s step n).length = n := by
  simp [expectedSeries]

theorem expectedSeries_getLast (s step : Int) (m : Nat) :
    (expectedSeries s step (m + 1)).getLast? = some (mkCandle (s + step * m)) := by
  simp only [expectedSeries, List.range_succ, List.map_append, List.map_cons, List.map_nil]
  exact List.getLast?_concat _

theorem expectedSeries_mem_time {s step : Int} {n : Nat} {c : Candle}
    (hc : c ∈ expectedSeries s step n) : ∃ i : Nat, i < n ∧ c.time = s + step * i := by
  simp only [expectedSeries, List.mem_map, List.mem_range] at hc
  obtain ⟨i, hi, rfl⟩ := hc
  exact ⟨i, hi, rfl⟩

theorem mockPage_eq (step : Int) :
    ∀ (limit n : Nat) (s e : Int),
      (∀ i : Nat, i < n → s + step * i < e) → e ≤ s + step * n →
      mockPage step s e limit = expectedSeries s step (min n limit) := by
  intro limit
  induction limit with
  | zero =>
    intro n s e _ _
    simp [mockPage, expectedSeries]
  | succ l ih =>
    intro n s e h1 h2
    cases n with
    | zero =>
      have he : ¬s < e := by
        push_cast at h2
        omega
      simp [mockPage, he, expectedSeries]
    | succ m =>
      have hse : s < e := by
        have := h1 0 (Nat.succ_pos m)
        push_cast at this
        omega
      have h1' : ∀ i : Nat, i < m → s + step + step * i < e := by
        intro i hi
        have hx := h1 (i + 1) (by omega)
        have hc : ((i + 1 : Nat) : Int) = (i : Int) + 1 := by push_cast; ring
        rw [hc] at hx
        calc s + step + step * i = s + step * ((i : Int) + 1) := by ring
          _ < e := hx
      have h2' : e ≤ s + step + step * m := by
        have hc : ((m + 1 : Nat) : Int) = (m : Int) + 1 := by push_cast; ring
        rw [hc] at h2
        calc e ≤ s + step * ((m : Int) + 1) := h2
          _ = s + step + step * m := by ring
      rw [show mockPage step s e (l + 1) =
            if s < e then mkCandle s :: mockPage step (s + step) e l else [] from rfl,
        if_pos hse, ih m (s + step) e h1' h2', Nat.succ_min_succ, expectedSeries_succ_head]

theorem mockPage_time_lt (step : Int) :
    ∀ (limit : Nat) (s e : Int), ∀ c ∈ mockPage step s e limit, c.time < e := by
  intro limit
  induction limit with
  | zero =>
    intro s e c hc
    simp [mockPage] at hc
  | succ l ih =>
    intro s e c hc
    by_cases hse : s < e
    · rw [show mockPage step s e (l + 1) =
            if s < e then mkCandle s :: mockPage step (s + step) e l else [] from rfl,
        if_pos hse] at hc
      rcases List.mem_cons.mp hc with rfl | hc
      · exact hse
      · exact ih (s + step) e c hc
    · rw [show mockPage step s e (l + 1) =
            if s < e then mkCandle s :: mockPage step (s + step) e l else [] from rfl,
        if_neg hse] at hc
      simp at hc

/-- One page suffices when at most 1000 grid candles remain: the loop
returns the accumulator extended by all of them. -/
theorem fetchLoop_mock_small (step e : Int) (fuel : Nat) (s : Int) (acc : List Candle)
    (n : Nat) (h1 : ∀ i : Nat, i < n → s + step * i < e) (h2 : e ≤ s + step * n)
    (hn : n ≤ 1000) :
    fetchLoop (mockUpstream step) step e (fuel + 1) s acc =
      some (acc ++ expectedSeries s step n) := by
  have hpage : mockPage step s e 1000 = expectedSeries s step n := by
    rw [mockPage_eq step 1000 n s e h1 h2, Nat.min_eq_left hn]
  rw [fetchLoop]
  simp only [mockUpstream, hpage]
  cases n with
  | zero => simp [expectedSeries]
  | succ m =>
    have hlast := expectedSeries_getLast s step m
    rw [hlast]
    have hall : ∀ c ∈ expectedSeries s step (m + 1), (fun c => decide (c.time < e)) c := by
      intro c hc
      obtain ⟨i, hi, ht⟩ := expectedSeries_mem_time hc
      simp only [decide_eq_true_eq, ht]
      exact h1 i hi
    simp only [mkCandle, List.takeWhile_eq_self_iff.mpr hall]
    have hcond : e ≤ s + step * (m : Int) + step := by
      have hc : ((m + 1 : Nat) : Int) = (m : Int) + 1 := by push_cast; ring
      rw [hc] at h2
      calc e ≤ s + step * ((m : Int) + 1) := h2
        _ = s + step * (m : Int) + step := by ring
    rw [if_pos (Or.inl hcond)]

/-- The pagination loop against the dense mocked upstream collects exactly
the grid candles of `[s, e)`, appended to the accumulator, provided the
fuel covers `n` candles at 1000 per page. -/
theorem fetchLoop_mock (step : Int) (e : Int) :
    ∀ (fuel : Nat) (s : Int) (acc : List Candle) (n : Nat),
      (∀ i : Nat, i < n → s + step * i < e) → e ≤ s + step * n →
      n ≤ (fuel + 1) * 1000 →
      fetchLoop (mockUpstream step) step e (fuel + 1) s acc =
        some (acc ++ expectedSeries s step n) := by
  intro fuel
  induction fuel with
  | zero =>
    intro s acc n h1 h2 hn
    exact fetchLoop_mock_small step e 0 s acc n h1 h2 (by omega)
  | succ f ih =>
    intro s acc n h1 h2 hn
    by_cases hsmall : n ≤ 1000
    · exact fetchLoop_mock_small step e (f + 1) s acc n h1 h2 hsmall
    · have h1000 : (1000 : Nat) ≤ n := by omega
      have hpage : mockPage step s e 1000 = expectedSeries s step 1000 := by
        rw [mockPage_eq step 1000 n s e h1 h2, Nat.min_eq_right (by omega)]
      rw [fetchLoop]
      simp only [mockUpstream, hpage]
      have hlast : (expectedSeries s step 1000).getLast? =
          some (mkCandle (s + step * ((999 : Nat) : Int))) :=
        expectedSeries_getLast s step 999
      rw [hlast]
      have hall : ∀ c ∈ expectedSeries s step 1000, (fun c => decide (c.time < e)) c := by
        intro c hc
        obtain ⟨i, hi, ht⟩ := expectedSeries_mem_time hc
        simp only [decide_eq_true_eq, ht]
        exact h1 i (by omega)
      simp only [mkCandle, List.takeWhile_eq_self_iff.mpr hall]
      have hneg : ¬(e ≤ s + step * ((999 : Nat) : Int) + step ∨
          (expectedSeries s step 1000).length < 1000) := by
        rw [expectedSeries_length]
        push_neg
        refine ⟨?_, le_refl 1000⟩
        have hx := h1 1000 (by omega)
        push_cast at hx ⊢
        omega
      rw [if_neg hneg]
      have h1' : ∀ i : Nat, i < n - 1000 → s + step * 1000 + step * i < e := by
        intro i hi
        have hx := h1 (1000 + i) (by omega)
        have hc : ((1000 + i : Nat) : Int) = 1000 + (i : Int) := by push_cast; ring
        rw [hc] at hx
        calc s + step * 1000 + step * i = s + step * (1000 + (i : Int)) := by ring
          _ < e := hx
      have h2' : e ≤ s + step * 1000 + step * ((n - 1000 : Nat) : Int) := by
        have hc : ((n - 1000 : Nat) : Int) = (n : Int) - 1000 := by
          push_cast [Nat.cast_sub h1000]
          ring
        rw [hc]
        calc e ≤ s + step * (n : Int) := h2
          _ = s + step * 1000 + step * ((n : Int) - 1000) := by ring
      have hn' : n - 1000 ≤ (f + 1) * 1000 := by omega
      have harg : s + step * ((999 : Nat) : Int) + step = s + step * 1000 := by
        push_cast
        ring
      rw [harg, ih (s + step * 1000) (acc ++ expectedSeries s step 1000) (n - 1000) h1' h2' hn',
        List.append_assoc]
      have hsplit := expectedSeries_split s step 1000 (n - 1000)
      rw [show (1000 : Nat) + (n - 1000) = n from by omega] at hsplit
      push_cast at hsplit
      rw [hsplit]

/-- C4: against the honest dense mocked upstream (ascending pages,
`limit`-bounded, window-respecting), the history fetch over
`[startMs, endMs)` returns exactly the `n` grid candles whose open times
lie in `[startMs, rest_end now endMs step)` — the end clamped to the open
time of the currently forming candle — each exactly once, in strictly
ascending order with no gaps and no duplicates; every candle at or past
the clamped end (including the currently forming one) is excluded. -/
theorem fetchHistory_complete (step startMs endMs nowMs : Int) (fuel n : Nat)
    (hstep : 0 < step)
    (h1 : ∀ i : Nat, i < n → startMs + step * i < rest_end nowMs endMs step)
    (h2 : rest_end nowMs endMs step ≤ startMs + step * n)
    (hn : n ≤ (fuel + 1) * 1000) :
    fetchHistory (mockUpstream step) (fuel + 1) nowMs startMs endMs step =
        some (expectedSeries startMs step n) ∧
      SortedSeries (expectedSeries startMs step n) ∧
      ∀ c ∈ expectedSeries startMs step n,
        startMs ≤ c.time ∧ c.time < rest_end nowMs endMs step := by
  refine ⟨?_, ?_, ?_⟩
  · rw [fetchHistory, if_neg hstep.ne', rest_end,
      show min endMs (current_kline_open nowMs step) = rest_end nowMs endMs step from rfl]
    rw [fetchLoop_mock step (rest_end nowMs endMs step) fuel startMs [] n h1 h2 hn]
    rw [List.nil_append]
  · rw [SortedSeries, expectedSeries, List.pairwise_map]
    refine (List.pairwise_lt_range n).imp ?_
    intro a b hab
    simp only [mkCandle]
    have : (a : Int) < (b : Int) := by exact_mod_cast hab
    have := (mul_lt_mul_left hstep).mpr this
    omega
  · intro c hc
    obtain ⟨i, hi, ht⟩ := expectedSeries_mem_time hc
    refine ⟨?_, ?_⟩
    · rw [ht]
      have : (0 : Int) ≤ step * i := mul_nonneg (le_of_lt hstep) (by positivity)
      omega
    · rw [ht]
      exact h1 i hi

/-- C4 (witness): the specification's end-to-end example — a 1h-interval
fetch over `[0, 7_200_000)` with `now` just past `7_200_000` returns
candles with open times `{0, 3_600_000}` exactly. -/
theorem fetchHistory_complete_witness :
    fetchHistory (mockUpstream 3600000) 1 7200005 0 7200000 3600000 =
        some (expectedSeries 0 3600000 2) ∧
      SortedSeries (expectedSeries 0 3600000 2) ∧
      ∀ c ∈ expectedSeries 0 3600000 2,
        (0 : Int) ≤ c.time ∧ c.time < rest_end 7200005 7200000 3600000 :=
  fetchHistory_complete 3600000 0 7200000 7200005 0 2 (by decide) (by decide) (by decide)
    (by decide)

end KLine
